import Mathlib

/-!
Verification of the two eskv sample programs: the bouncing-widget demo
(widget_spam.py) and the calculator (calculator.py).

Positions, velocities and sizes are modelled over the rationals, standing in
for the real-number arithmetic that the Python source performs on floats.
-/

namespace WidgetSpam

/-- A two-dimensional vector, as used for pos, vel and size in the source. -/
structure Vec2 where
  x : ℚ
  y : ℚ
deriving DecidableEq

/-- State of one MovingWidget: position, velocity and size.
Color plays no role in the dynamics and is omitted. -/
structure Widget where
  pos : Vec2
  vel : Vec2
  size : Vec2
deriving DecidableEq

/-- The enclosing Frame, reduced to its width and height (the parent bounds
read by MovingWidget.move). -/
structure Container where
  width : ℚ
  height : ℚ
deriving DecidableEq

/-- Embeds MovingWidget.move:
  self.pos = Vector(self.pos) + self.vel
  if self.x < 0 or (self.x + self.width) > self.parent.width: self.vel.x *= -1
  if self.y < 0 or (self.y + self.height) > self.parent.height: self.vel.y *= -1
The bound checks read the already-updated position. -/
def move (c : Container) (s : Widget) : Widget :=
  let p : Vec2 := ⟨s.pos.x + s.vel.x, s.pos.y + s.vel.y⟩
  let vx : ℚ := if p.x < 0 ∨ p.x + s.size.x > c.width then -s.vel.x else s.vel.x
  let vy : ℚ := if p.y < 0 ∨ p.y + s.size.y > c.height then -s.vel.y else s.vel.y
  ⟨p, ⟨vx, vy⟩, s.size⟩

/-- One axis of the move step: given the far bound W, the widget extent w,
a coordinate x and a velocity component v, return the updated coordinate and
velocity component. -/
def move1 (W w x v : ℚ) : ℚ × ℚ :=
  let x2 := x + v
  (x2, if x2 < 0 ∨ x2 + w > W then -v else v)

/-- Iterated ticks of the bounce step. -/
def ticks (c : Container) (n : ℕ) (s : Widget) : Widget :=
  (move c)^[n] s

/-- Embeds the velocity-component initializer of MovingWidget.__init__:
  self.vel = Vector(2 * (0.5 - random()), 2 * (0.5 - random())). -/
def initVelComponent (r : ℚ) : ℚ := 2 * (1 / 2 - r)

/-- Embeds the construction of one widget in WidgetSpamApp.spawn_widgets:
  size = (20 * (random() + 1), 20 * (random() + 1))
  widget = MovingWidget(size=size,
    pos=(random() * (frame.width - size[0]), random() * (frame.height - size[1])))
with rsw, rsh, rpx, rpy, rvx, rvy the six draws of random(). -/
def spawnWidget (c : Container) (rsw rsh rpx rpy rvx rvy : ℚ) : Widget :=
  let w := 20 * (rsw + 1)
  let h := 20 * (rsh + 1)
  { pos := ⟨rpx * (c.width - w), rpy * (c.height - h)⟩
    vel := ⟨initVelComponent rvx, initVelComponent rvy⟩
    size := ⟨w, h⟩ }

/-- Embeds the loop of Frame.update acting on a collection of n moving
widgets held as a function from indices to states: the children are visited
in the given order and each visited child is moved in place. -/
def updateSeq (c : Container) (n : ℕ) (order : List (Fin n))
    (s : Fin n → Widget) : Fin n → Widget :=
  order.foldl (fun st i => Function.update st i (move c (st i))) s

/-- Invariant for one axis of the bounce dynamics: the speed equals the
initial speed, and the coordinate is either inside the container, or past a
wall by less than one initial speed with the velocity already reflected. -/
def goodAxis (W w v0 x v : ℚ) : Prop :=
  |v| = |v0| ∧
    ((0 ≤ x ∧ x + w ≤ W) ∨
     (x < 0 ∧ -|v0| ≤ x ∧ v = |v0|) ∨
     (W < x + w ∧ x + w ≤ W + |v0| ∧ v = -|v0|))

/-- A child of the Frame, reduced to what clear_widgets inspects: an identity
and whether it is a MovingWidget instance. -/
structure KWidget where
  wid : ℕ
  isMoving : Bool
deriving DecidableEq

/-- Embeds Widget.remove_widget: the given child object is removed from the
children list. -/
def removeWidget (children : List KWidget) (w : KWidget) : List KWidget :=
  children.erase w

/-- Embeds WidgetSpamApp.clear_widgets:
  for child in list(self.frame.children):
      if isinstance(child, MovingWidget): self.frame.remove_widget(child)
The loop runs over a snapshot of the children while the live list shrinks. -/
def clearWidgets (children : List KWidget) : List KWidget :=
  children.foldl
    (fun cur child => if child.isMoving then removeWidget cur child else cur)
    children

end WidgetSpam

namespace Calculator

/-- Replacement of every occurrence of one character by a string, embedding
the Python str.replace calls of CalculatorApp.calc, whose patterns are the
single characters X and ^. -/
def replaceChar : List Char → Char → List Char → List Char
  | [], _, _ => []
  | c :: rest, old, new =>
      (if c = old then new else [c]) ++ replaceChar rest old new

/-- Embeds text.replace(X, star).replace(caret, star star) from
CalculatorApp.calc. -/
def substGlyphs (cs : List Char) : List Char :=
  replaceChar (replaceChar cs 'X' ['*']) '^' ['*', '*']

/-- The per-character substitution that the spec describes: X becomes the
multiplication operator and ^ becomes the exponentiation operator. -/
def glyphSub (c : Char) : List Char :=
  if c = 'X' then ['*'] else if c = '^' then ['*', '*'] else [c]

/-- Modelled from the spec: a numeric value of the generic expression
evaluator (the Python builtin eval, absent from the repository), kept as an
unnormalized integer fraction so that int and float arithmetic of the sample
is covered by exact rational arithmetic. -/
structure Val where
  num : ℤ
  den : ℤ
deriving DecidableEq

/-- Sum of two values as fractions. -/
def addVal (a b : Val) : Val := ⟨a.num * b.den + b.num * a.den, a.den * b.den⟩

/-- Difference of two values as fractions. -/
def subVal (a b : Val) : Val := ⟨a.num * b.den - b.num * a.den, a.den * b.den⟩

/-- Product of two values as fractions. -/
def mulVal (a b : Val) : Val := ⟨a.num * b.num, a.den * b.den⟩

/-- Negation of a value. -/
def negVal (a : Val) : Val := ⟨-a.num, a.den⟩

/-- Division, failing on a zero divisor exactly as eval raises
ZeroDivisionError. -/
def divVal (a b : Val) : Option Val :=
  if b.num = 0 then none else some ⟨a.num * b.den, a.den * b.num⟩

/-- Power with an integer exponent. -/
def zpowVal (a : Val) (k : ℤ) : Val :=
  if 0 ≤ k then ⟨a.num ^ k.toNat, a.den ^ k.toNat⟩
  else ⟨a.den ^ (-k).toNat, a.num ^ (-k).toNat⟩

/-- Exponentiation: defined for integer exponents, failing on zero raised to
a negative power as eval does; fractional exponents are outside the model. -/
def powVal (a b : Val) : Option Val :=
  if b.den = 1 then
    if a.num = 0 ∧ b.num < 0 then none else some (zpowVal a b.num)
  else none

/-- Tokens of the arithmetic expression language that the substituted
display text is written in. -/
inductive Tok where
  | num (v : Val)
  | plus
  | minus
  | star
  | slash
  | pow
  | lpar
  | rpar
deriving DecidableEq

/-- A character that may continue a numeric literal. -/
def isNumChar (c : Char) : Bool := c.isDigit || c == '.'

/-- Digits to the natural number they denote. -/
def natOfDigits (cs : List Char) : ℕ :=
  cs.foldl (fun a c => 10 * a + (c.toNat - 48)) 0

/-- Whether all characters are decimal digits. -/
def allDigits (cs : List Char) : Bool := cs.all Char.isDigit

/-- Value of one pending numeric literal: digits, or digits around a single
dot with at least one digit present, as in Python number literals. -/
def numVal (cs : List Char) : Option Val :=
  let ip := cs.takeWhile (fun c => c != '.')
  let rest := cs.dropWhile (fun c => c != '.')
  match rest with
  | [] => if allDigits cs && !cs.isEmpty then some ⟨natOfDigits cs, 1⟩ else none
  | _ :: frac =>
      if allDigits ip && allDigits frac && (!ip.isEmpty || !frac.isEmpty) then
        some ⟨(natOfDigits ip : ℤ) * 10 ^ frac.length + natOfDigits frac,
          10 ^ frac.length⟩
      else none

/-- A one-character symbol token, if the character is one of the operators
or parentheses of the language. -/
def symTok1 (c : Char) : Option Tok :=
  if c = '+' then some Tok.plus
  else if c = '-' then some Tok.minus
  else if c = '*' then some Tok.star
  else if c = '/' then some Tok.slash
  else if c = '(' then some Tok.lpar
  else if c = ')' then some Tok.rpar
  else none

/-- The pending numeric literal flushed to a token list. -/
def flushNum (pending : List Char) : Option (List Tok) :=
  if pending.isEmpty then some []
  else (numVal pending).map (fun v => [Tok.num v])

/-- The scanner: pending holds the numeric literal being read; any character
outside the language makes the scan fail, as eval rejects it. -/
def lexAux : List Char → List Char → Option (List Tok)
  | pending, [] => flushNum pending
  | pending, c :: cs =>
      if isNumChar c then lexAux (pending ++ [c]) cs
      else (flushNum pending).bind fun f =>
        (symTok1 c).bind fun t =>
          (lexAux [] cs).map fun rest => f ++ t :: rest

/-- Two adjacent star tokens are one exponentiation operator, scanned
greedily as the Python tokenizer does. -/
def collapseStars : List Tok → List Tok
  | Tok.star :: Tok.star :: ts => Tok.pow :: collapseStars ts
  | t :: ts => t :: collapseStars ts
  | [] => []

/-- Tokens of a character string. -/
def lexChars (cs : List Char) : Option (List Tok) :=
  (lexAux [] cs).map collapseStars

/- Modelled from the spec: the recursive-descent parser-evaluator standing
in for the generic expression evaluator, with the Python operator grammar:
addition level, multiplication level, unary sign, exponentiation binding
tighter with a unary right operand, and atoms that are numbers or
parenthesized expressions. Each function consumes one unit of fuel per
recursive call, and parseARest and parseMRest carry the value parsed so
far. -/
mutual

def parseA : ℕ → List Tok → Option (Val × List Tok)
  | 0, _ => none
  | f + 1, ts => (parseM f ts).bind fun p => parseARest f p.1 p.2

def parseARest : ℕ → Val → List Tok → Option (Val × List Tok)
  | 0, _, _ => none
  | f + 1, x, Tok.plus :: ts =>
      (parseM f ts).bind fun p => parseARest f (addVal x p.1) p.2
  | f + 1, x, Tok.minus :: ts =>
      (parseM f ts).bind fun p => parseARest f (subVal x p.1) p.2
  | _ + 1, x, ts => some (x, ts)

def parseM : ℕ → List Tok → Option (Val × List Tok)
  | 0, _ => none
  | f + 1, ts => (parseU f ts).bind fun p => parseMRest f p.1 p.2

def parseMRest : ℕ → Val → List Tok → Option (Val × List Tok)
  | 0, _, _ => none
  | f + 1, x, Tok.star :: ts =>
      (parseU f ts).bind fun p => parseMRest f (mulVal x p.1) p.2
  | f + 1, x, Tok.slash :: ts =>
      (parseU f ts).bind fun p =>
        (divVal x p.1).bind fun v => parseMRest f v p.2
  | _ + 1, x, ts => some (x, ts)

def parseU : ℕ → List Tok → Option (Val × List Tok)
  | 0, _ => none
  | f + 1, Tok.minus :: ts => (parseU f ts).map fun p => (negVal p.1, p.2)
  | f + 1, Tok.plus :: ts => parseU f ts
  | f + 1, ts =>
      (parsePrim f ts).bind fun p =>
        match p.2 with
        | Tok.pow :: r =>
            (parseU f r).bind fun q =>
              (powVal p.1 q.1).map fun v => (v, q.2)
        | r => some (p.1, r)

def parsePrim : ℕ → List Tok → Option (Val × List Tok)
  | 0, _ => none
  | _ + 1, Tok.num v :: ts => some (v, ts)
  | f + 1, Tok.lpar :: ts =>
      (parseA f ts).bind fun p =>
        match p.2 with
        | Tok.rpar :: r => some (p.1, r)
        | _ => none
  | _ + 1, _ => none

end

/-- Fuel that the top-level evaluation grants the parser. -/
def fuelFor (ts : List Tok) : ℕ := 3 * ts.length + 3

/-- Evaluation of a token list: a full parse of the addition level. -/
def evalToks (ts : List Tok) : Option Val :=
  match parseA (fuelFor ts) ts with
  | some (q, []) => some q
  | _ => none

/-- Modelled from the spec: evaluation of the substituted display text by
the generic expression evaluator, None standing for any raised error. -/
def evalArith (cs : List Char) : Option Val :=
  (lexChars cs).bind evalToks

/-- String representation of a result value, an integer when the fraction
has unit denominator. -/
def reprVal (v : Val) : String :=
  if v.den = 1 then toString v.num
  else toString v.num ++ "/" ++ toString v.den

/-- The fixed fallback text returned on any evaluation failure. -/
def fallbackMsg : String := "What are you doing Dave?"

/-- Embeds CalculatorApp.calc:
  try: return str(eval(text.replace(X, star).replace(caret, star star)))
  except: return the fallback text
with the evaluator modelled from the spec. The name calc is a Lean keyword,
hence calcFn. -/
def calcFn (text : String) : String :=
  match evalArith (substGlyphs text.toList) with
  | some v => reprVal v
  | none => fallbackMsg

/-- Embeds the on_press handler of the CalcButton labelled plus-slash-minus:
  display.text = app.calc(minus lpar + display.text + rpar). -/
def plusMinusPress (display : String) : String :=
  calcFn ("-(" ++ display ++ ")")

end Calculator

namespace WidgetSpam

section Lemmas

/-- Components of the position after one move. -/
theorem move_posx (c : Container) (s : Widget) :
    (move c s).pos.x = s.pos.x + s.vel.x := rfl

/-- The y coordinate after one move. -/
theorem move_posy (c : Container) (s : Widget) :
    (move c s).pos.y = s.pos.y + s.vel.y := rfl

/-- The x velocity after one move, with the bound check spelled on the
pre-move state. -/
theorem move_velx (c : Container) (s : Widget) :
    (move c s).vel.x =
      if s.pos.x + s.vel.x < 0 ∨ s.pos.x + s.vel.x + s.size.x > c.width
      then -s.vel.x else s.vel.x := rfl

/-- The y velocity after one move, with the bound check spelled on the
pre-move state. -/
theorem move_vely (c : Container) (s : Widget) :
    (move c s).vel.y =
      if s.pos.y + s.vel.y < 0 ∨ s.pos.y + s.vel.y + s.size.y > c.height
      then -s.vel.y else s.vel.y := rfl

/-- The size is unchanged by a move. -/
theorem move_size (c : Container) (s : Widget) : (move c s).size = s.size := rfl

/-- The two axes of move are the two instances of move1, run independently. -/
theorem move_axes (c : Container) (s : Widget) :
    (move c s).pos.x = (move1 c.width s.size.x s.pos.x s.vel.x).1 ∧
    (move c s).vel.x = (move1 c.width s.size.x s.pos.x s.vel.x).2 ∧
    (move c s).pos.y = (move1 c.height s.size.y s.pos.y s.vel.y).1 ∧
    (move c s).vel.y = (move1 c.height s.size.y s.pos.y s.vel.y).2 ∧
    (move c s).size = s.size := by
  refine ⟨rfl, rfl, rfl, rfl, rfl⟩

end Lemmas

/-- C1: one tick of the bounce step sets position to p + v unconditionally,
and, per axis and on the updated position, negates the velocity component
exactly when the leading edge exceeds the far bound or the trailing edge is
below zero; size is untouched, so the flipped velocity is what the next tick
reads. -/
theorem bounce_step_characterization (c : Container) (s : Widget) :
    (move c s).pos.x = s.pos.x + s.vel.x ∧
    (move c s).pos.y = s.pos.y + s.vel.y ∧
    ((move c s).vel.x =
      if (move c s).pos.x < 0 ∨ (move c s).pos.x + s.size.x > c.width
      then -s.vel.x else s.vel.x) ∧
    ((move c s).vel.y =
      if (move c s).pos.y < 0 ∨ (move c s).pos.y + s.size.y > c.height
      then -s.vel.y else s.vel.y) ∧
    (move c s).size = s.size := by
  refine ⟨rfl, rfl, rfl, rfl, rfl⟩

/-- C9: on each axis the velocity is negated exactly when the freshly updated
position is out of bounds, whatever the sign of the velocity; consequently a
widget that is left of the left wall both before and after one step has its
x velocity negated on two consecutive ticks and oscillates in place with
period two on that axis. -/
theorem flip_iff_out_and_oscillation (c : Container) (s : Widget) :
    (((move c s).pos.x < 0 ∨ (move c s).pos.x + s.size.x > c.width) →
        (move c s).vel.x = -s.vel.x) ∧
    (¬((move c s).pos.x < 0 ∨ (move c s).pos.x + s.size.x > c.width) →
        (move c s).vel.x = s.vel.x) ∧
    (s.pos.x < 0 → s.pos.x + s.vel.x < 0 →
        (move c (move c s)).pos.x = s.pos.x ∧
        (move c (move c s)).vel.x = s.vel.x) := by
  refine ⟨?_, ?_, ?_⟩
  · intro h
    rw [move_posx] at h
    rw [move_velx, if_pos h]
  · intro h
    rw [move_posx] at h
    rw [move_velx, if_neg h]
  · intro hx hxv
    have hv1 : (move c s).vel.x = -s.vel.x := by
      rw [move_velx, if_pos (Or.inl hxv)]
    have hp1 : (move c s).pos.x = s.pos.x + s.vel.x := move_posx c s
    have hp2 : (move c (move c s)).pos.x = s.pos.x := by
      rw [move_posx, hp1, hv1]; ring
    refine ⟨hp2, ?_⟩
    rw [move_velx, hp1, hv1, if_pos, neg_neg]
    left; linarith

/-- C7: for every draw of the random source in the interval from 0
inclusive to 1 exclusive, the initial velocity component lies in the closed
interval from -1 to 1. -/
theorem initVel_in_range (r : ℚ) (h0 : 0 ≤ r) (h1 : r < 1) :
    -1 ≤ initVelComponent r ∧ initVelComponent r ≤ 1 := by
  unfold initVelComponent
  constructor <;> linarith

/-- Witness for C7 at r = 1/2. -/
theorem initVel_in_range_witness :
    -1 ≤ initVelComponent (1 / 2) ∧ initVelComponent (1 / 2) ≤ 1 :=
  initVel_in_range (1 / 2) (by norm_num) (by norm_num)

/-- Witness for C9: a widget five units left of the wall moving further left
flips on both of the next two ticks and is back in its starting x state. -/
theorem flip_iff_out_and_oscillation_witness :
    (move ⟨10, 10⟩ (move ⟨10, 10⟩ ⟨⟨-5, 2⟩, ⟨-1, 0⟩, ⟨1, 1⟩⟩)).pos.x =
      (⟨⟨-5, 2⟩, ⟨-1, 0⟩, ⟨1, 1⟩⟩ : Widget).pos.x ∧
    (move ⟨10, 10⟩ (move ⟨10, 10⟩ ⟨⟨-5, 2⟩, ⟨-1, 0⟩, ⟨1, 1⟩⟩)).vel.x =
      (⟨⟨-5, 2⟩, ⟨-1, 0⟩, ⟨1, 1⟩⟩ : Widget).vel.x :=
  (flip_iff_out_and_oscillation ⟨10, 10⟩ ⟨⟨-5, 2⟩, ⟨-1, 0⟩, ⟨1, 1⟩⟩).2.2
    (by norm_num) (by norm_num)

/-- C5: every widget built by spawn_widgets, for random draws in the interval
from 0 inclusive to 1 exclusive and a frame at least 40 units wide and tall
(so that the frame can hold the largest spawnable widget), starts with its
position inside the range container extent minus widget size on both axes. -/
theorem spawn_within_bounds (c : Container) (rsw rsh rpx rpy rvx rvy : ℚ)
    (hsw0 : 0 ≤ rsw) (hsw1 : rsw < 1) (hsh0 : 0 ≤ rsh) (hsh1 : rsh < 1)
    (hpx0 : 0 ≤ rpx) (hpx1 : rpx < 1) (hpy0 : 0 ≤ rpy) (hpy1 : rpy < 1)
    (hW : 40 ≤ c.width) (hH : 40 ≤ c.height) :
    0 ≤ (spawnWidget c rsw rsh rpx rpy rvx rvy).pos.x ∧
    (spawnWidget c rsw rsh rpx rpy rvx rvy).pos.x ≤
      c.width - (spawnWidget c rsw rsh rpx rpy rvx rvy).size.x ∧
    0 ≤ (spawnWidget c rsw rsh rpx rpy rvx rvy).pos.y ∧
    (spawnWidget c rsw rsh rpx rpy rvx rvy).pos.y ≤
      c.height - (spawnWidget c rsw rsh rpx rpy rvx rvy).size.y := by
  simp only [spawnWidget]
  have hwx : 0 < c.width - 20 * (rsw + 1) := by linarith
  have hwy : 0 < c.height - 20 * (rsh + 1) := by linarith
  refine ⟨mul_nonneg hpx0 hwx.le, ?_, mul_nonneg hpy0 hwy.le, ?_⟩
  · nlinarith [mul_nonneg (by linarith : (0 : ℚ) ≤ 1 - rpx) hwx.le]
  · nlinarith [mul_nonneg (by linarith : (0 : ℚ) ≤ 1 - rpy) hwy.le]

/-- Witness for C5 at a 100 by 100 frame with all draws equal to 1/2. -/
theorem spawn_within_bounds_witness :
    0 ≤ (spawnWidget ⟨100, 100⟩ (1/2) (1/2) (1/2) (1/2) (1/2) (1/2)).pos.x ∧
    (spawnWidget ⟨100, 100⟩ (1/2) (1/2) (1/2) (1/2) (1/2) (1/2)).pos.x ≤
      (100 : ℚ) - (spawnWidget ⟨100, 100⟩ (1/2) (1/2) (1/2) (1/2) (1/2) (1/2)).size.x ∧
    0 ≤ (spawnWidget ⟨100, 100⟩ (1/2) (1/2) (1/2) (1/2) (1/2) (1/2)).pos.y ∧
    (spawnWidget ⟨100, 100⟩ (1/2) (1/2) (1/2) (1/2) (1/2) (1/2)).pos.y ≤
      (100 : ℚ) - (spawnWidget ⟨100, 100⟩ (1/2) (1/2) (1/2) (1/2) (1/2) (1/2)).size.y :=
  spawn_within_bounds ⟨100, 100⟩ (1/2) (1/2) (1/2) (1/2) (1/2) (1/2)
    (by norm_num) (by norm_num) (by norm_num) (by norm_num)
    (by norm_num) (by norm_num) (by norm_num) (by norm_num)
    (by norm_num) (by norm_num)

/-- Running the update loop over a duplicate-free order moves exactly the
visited widgets, each from its own pre-loop state. -/
theorem updateSeq_eq (c : Container) (n : ℕ) :
    ∀ (order : List (Fin n)), order.Nodup → ∀ (s : Fin n → Widget) (i : Fin n),
      updateSeq c n order s i = if i ∈ order then move c (s i) else s i := by
  intro order
  induction order with
  | nil => intro _ s i; simp [updateSeq]
  | cons a rest ih =>
      intro hnd s i
      have hna : a ∉ rest := (List.nodup_cons.mp hnd).1
      have hnr : rest.Nodup := (List.nodup_cons.mp hnd).2
      have hstep : updateSeq c n (a :: rest) s =
          updateSeq c n rest (Function.update s a (move c (s a))) := rfl
      rw [hstep, ih hnr]
      by_cases hir : i ∈ rest
      · have hia : i ≠ a := fun h => hna (h ▸ hir)
        simp [hir, Function.update_noteq hia, List.mem_cons, hia]
      · by_cases hia : i = a
        · subst hia
          simp [hir, Function.update_same]
        · simp [hir, Function.update_noteq hia, List.mem_cons, hia]

/-- C8: the order in which the update loop visits the widgets is irrelevant:
two duplicate-free visit orders containing the same indices produce the same
final state for every widget, and every visited widget ends in the state
obtained by moving its own initial state once. -/
theorem update_order_irrelevant (c : Container) (n : ℕ)
    (o1 o2 : List (Fin n)) (s : Fin n → Widget)
    (h1 : o1.Nodup) (h2 : o2.Nodup) (hmem : ∀ i, i ∈ o1 ↔ i ∈ o2) :
    (∀ i, updateSeq c n o1 s i = updateSeq c n o2 s i) ∧
    (∀ i, i ∈ o1 → updateSeq c n o1 s i = move c (s i)) := by
  constructor
  · intro i
    rw [updateSeq_eq c n o1 h1, updateSeq_eq c n o2 h2]
    by_cases h : i ∈ o1
    · rw [if_pos h, if_pos ((hmem i).mp h)]
    · rw [if_neg h, if_neg (fun hh => h ((hmem i).mpr hh))]
  · intro i hi
    rw [updateSeq_eq c n o1 h1, if_pos hi]

/-- One move preserves the goodAxis invariant, as long as the initial speed
is at most the container extent left over by the widget. -/
theorem goodAxis_step (W w v0 : ℚ) (hv : |v0| ≤ W - w) (x v : ℚ)
    (h : goodAxis W w v0 x v) :
    goodAxis W w v0 (move1 W w x v).1 (move1 W w x v).2 := by
  obtain ⟨hvv, hcase⟩ := h
  have habs0 : (0 : ℚ) ≤ |v0| := abs_nonneg v0
  have hvlo : -|v0| ≤ v := by rw [← hvv]; exact neg_abs_le v
  have hvhi : v ≤ |v0| := by rw [← hvv]; exact le_abs_self v
  rcases hcase with ⟨h0, h1⟩ | ⟨h0, h1, h2⟩ | ⟨h0, h1, h2⟩
  · by_cases hc : x + v < 0 ∨ x + v + w > W
    · have hval : (move1 W w x v).2 = -v := by
        simp only [move1, if_pos hc]
      have hpos : (move1 W w x v).1 = x + v := rfl
      constructor
      · rw [hval, abs_neg, hvv]
      · rcases hc with hneg | hfar
        · right; left
          have hvneg : v < 0 := by linarith
          have hveq : v = -|v0| := by
            rw [← hvv, abs_of_neg hvneg]; ring
          refine ⟨by rw [hpos]; exact hneg, by rw [hpos]; linarith, ?_⟩
          rw [hval, hveq, neg_neg]
        · right; right
          have hvpos : 0 < v := by linarith
          have hveq : v = |v0| := by rw [← hvv, abs_of_pos hvpos]
          refine ⟨by rw [hpos]; linarith, by rw [hpos]; linarith, ?_⟩
          rw [hval, hveq]
    · push_neg at hc
      have hval : (move1 W w x v).2 = v := by
        simp only [move1]
        rw [if_neg (not_or.mpr ⟨not_lt.mpr hc.1, not_lt.mpr hc.2⟩)]
      have hpos : (move1 W w x v).1 = x + v := rfl
      refine ⟨by rw [hval, hvv],
        Or.inl ⟨by rw [hpos]; exact hc.1, by rw [hpos]; exact hc.2⟩⟩
  · have hspos : 0 < |v0| := by linarith
    have hx0 : 0 ≤ x + v := by rw [h2] at *; linarith
    have hx1 : x + v + w < W := by
      have : x + v < |v0| := by rw [h2]; linarith
      linarith
    have hcond : ¬(x + v < 0 ∨ x + v + w > W) :=
      not_or.mpr ⟨not_lt.mpr hx0, not_lt.mpr hx1.le⟩
    have hval : (move1 W w x v).2 = v := by simp only [move1, if_neg hcond]
    constructor
    · rw [hval, hvv]
    · left
      exact ⟨hx0, hx1.le⟩
  · have hspos : 0 < |v0| := by linarith
    have hx1 : x + v + w ≤ W := by rw [h2]; linarith
    have hx0 : 0 ≤ x + v := by
      have hxw : w + |v0| ≤ W := by linarith
      have : W - w < x + v + |v0| := by rw [h2] at *; linarith
      linarith
    have hcond : ¬(x + v < 0 ∨ x + v + w > W) :=
      not_or.mpr ⟨not_lt.mpr hx0, not_lt.mpr hx1⟩
    have hval : (move1 W w x v).2 = v := by simp only [move1, if_neg hcond]
    constructor
    · rw [hval, hvv]
    · left
      exact ⟨hx0, hx1⟩

/-- The goodAxis invariant keeps the coordinate within one initial speed of
the container on that axis. -/
theorem goodAxis_bounds (W w v0 x v : ℚ) (hv : |v0| ≤ W - w)
    (h : goodAxis W w v0 x v) :
    -|v0| ≤ x ∧ x + w ≤ W + |v0| := by
  have habs0 : (0 : ℚ) ≤ |v0| := abs_nonneg v0
  obtain ⟨_, hcase⟩ := h
  rcases hcase with ⟨h0, h1⟩ | ⟨h0, h1, h2⟩ | ⟨h0, h1, h2⟩
  · exact ⟨by linarith, by linarith⟩
  · exact ⟨h1, by linarith⟩
  · exact ⟨by linarith, h1⟩

/-- Every tick preserves the goodAxis invariant on both axes, together with
the size. -/
theorem ticks_good (c : Container) (s : Widget)
    (hvx : |s.vel.x| ≤ c.width - s.size.x)
    (hvy : |s.vel.y| ≤ c.height - s.size.y)
    (hgx : goodAxis c.width s.size.x s.vel.x s.pos.x s.vel.x)
    (hgy : goodAxis c.height s.size.y s.vel.y s.pos.y s.vel.y) :
    ∀ n : ℕ,
      goodAxis c.width s.size.x s.vel.x (ticks c n s).pos.x (ticks c n s).vel.x ∧
      goodAxis c.height s.size.y s.vel.y (ticks c n s).pos.y (ticks c n s).vel.y ∧
      (ticks c n s).size = s.size := by
  intro n
  induction n with
  | zero => exact ⟨hgx, hgy, rfl⟩
  | succ k ih =>
      obtain ⟨ihx, ihy, ihs⟩ := ih
      have hstep : ticks c (k + 1) s = move c (ticks c k s) := by
        simp only [ticks, Function.iterate_succ_apply']
      obtain ⟨hpx, hvx2, hpy, hvy2, hsz⟩ := move_axes c (ticks c k s)
      refine ⟨?_, ?_, ?_⟩
      · rw [hstep, hpx, hvx2, ihs]
        exact goodAxis_step c.width s.size.x s.vel.x hvx
          (ticks c k s).pos.x (ticks c k s).vel.x ihx
      · rw [hstep, hpy, hvy2, ihs]
        exact goodAxis_step c.height s.size.y s.vel.y hvy
          (ticks c k s).pos.y (ticks c k s).vel.y ihy
      · rw [hstep, hsz, ihs]

/-- Counterexample to C4 as stated: a widget of size 1 in a 10 by 10 frame,
starting fully inside at x = 1/2 with x velocity -1, has x = -1/2 after one
tick, outside the container. -/
theorem bounds_claim_counterexample :
    (0 ≤ (⟨⟨1/2, 5⟩, ⟨-1, 0⟩, ⟨1, 1⟩⟩ : Widget).pos.x ∧
     (⟨⟨1/2, 5⟩, ⟨-1, 0⟩, ⟨1, 1⟩⟩ : Widget).pos.x +
       (⟨⟨1/2, 5⟩, ⟨-1, 0⟩, ⟨1, 1⟩⟩ : Widget).size.x ≤ (10 : ℚ) ∧
     0 ≤ (⟨⟨1/2, 5⟩, ⟨-1, 0⟩, ⟨1, 1⟩⟩ : Widget).pos.y ∧
     (⟨⟨1/2, 5⟩, ⟨-1, 0⟩, ⟨1, 1⟩⟩ : Widget).pos.y +
       (⟨⟨1/2, 5⟩, ⟨-1, 0⟩, ⟨1, 1⟩⟩ : Widget).size.y ≤ (10 : ℚ)) ∧
    (ticks ⟨10, 10⟩ 1 ⟨⟨1/2, 5⟩, ⟨-1, 0⟩, ⟨1, 1⟩⟩).pos.x < 0 := by
  constructor
  · refine ⟨by norm_num, by norm_num, by norm_num, by norm_num⟩
  · show (move ⟨10, 10⟩ ⟨⟨1/2, 5⟩, ⟨-1, 0⟩, ⟨1, 1⟩⟩).pos.x < 0
    rw [move_posx]
    norm_num

/-- C4 amended: a widget that starts inside the container, with each speed
component at most the container extent left over by the widget on that axis,
can overshoot each wall by at most one tick of travel: for every number of
ticks the position stays within -speed to container bound plus speed on each
axis, rather than within the container itself. -/
theorem bounce_overshoot_bounded (c : Container) (s : Widget)
    (hx0 : 0 ≤ s.pos.x) (hx1 : s.pos.x + s.size.x ≤ c.width)
    (hy0 : 0 ≤ s.pos.y) (hy1 : s.pos.y + s.size.y ≤ c.height)
    (hvx : |s.vel.x| ≤ c.width - s.size.x)
    (hvy : |s.vel.y| ≤ c.height - s.size.y) :
    ∀ n : ℕ,
      -|s.vel.x| ≤ (ticks c n s).pos.x ∧
      (ticks c n s).pos.x + s.size.x ≤ c.width + |s.vel.x| ∧
      -|s.vel.y| ≤ (ticks c n s).pos.y ∧
      (ticks c n s).pos.y + s.size.y ≤ c.height + |s.vel.y| := by
  intro n
  have hgx : goodAxis c.width s.size.x s.vel.x s.pos.x s.vel.x :=
    ⟨rfl, Or.inl ⟨hx0, hx1⟩⟩
  have hgy : goodAxis c.height s.size.y s.vel.y s.pos.y s.vel.y :=
    ⟨rfl, Or.inl ⟨hy0, hy1⟩⟩
  obtain ⟨hnx, hny, _⟩ := ticks_good c s hvx hvy hgx hgy n
  obtain ⟨hbx1, hbx2⟩ := goodAxis_bounds c.width s.size.x s.vel.x _ _ hvx hnx
  obtain ⟨hby1, hby2⟩ := goodAxis_bounds c.height s.size.y s.vel.y _ _ hvy hny
  exact ⟨hbx1, hbx2, hby1, hby2⟩

/-- Witness for the amended C4 at one tick of a concrete widget. -/
theorem bounce_overshoot_bounded_witness :
    -|(⟨⟨1, 1⟩, ⟨1/2, 1/2⟩, ⟨2, 2⟩⟩ : Widget).vel.x| ≤
      (ticks ⟨10, 10⟩ 1 ⟨⟨1, 1⟩, ⟨1/2, 1/2⟩, ⟨2, 2⟩⟩).pos.x ∧
    (ticks ⟨10, 10⟩ 1 ⟨⟨1, 1⟩, ⟨1/2, 1/2⟩, ⟨2, 2⟩⟩).pos.x +
      (⟨⟨1, 1⟩, ⟨1/2, 1/2⟩, ⟨2, 2⟩⟩ : Widget).size.x ≤
      (10 : ℚ) + |(⟨⟨1, 1⟩, ⟨1/2, 1/2⟩, ⟨2, 2⟩⟩ : Widget).vel.x| ∧
    -|(⟨⟨1, 1⟩, ⟨1/2, 1/2⟩, ⟨2, 2⟩⟩ : Widget).vel.y| ≤
      (ticks ⟨10, 10⟩ 1 ⟨⟨1, 1⟩, ⟨1/2, 1/2⟩, ⟨2, 2⟩⟩).pos.y ∧
    (ticks ⟨10, 10⟩ 1 ⟨⟨1, 1⟩, ⟨1/2, 1/2⟩, ⟨2, 2⟩⟩).pos.y +
      (⟨⟨1, 1⟩, ⟨1/2, 1/2⟩, ⟨2, 2⟩⟩ : Widget).size.y ≤
      (10 : ℚ) + |(⟨⟨1, 1⟩, ⟨1/2, 1/2⟩, ⟨2, 2⟩⟩ : Widget).vel.y| :=
  bounce_overshoot_bounded ⟨10, 10⟩ ⟨⟨1, 1⟩, ⟨1/2, 1/2⟩, ⟨2, 2⟩⟩
    (by norm_num) (by norm_num) (by norm_num) (by norm_num)
    (by rw [show (⟨⟨1, 1⟩, ⟨1/2, 1/2⟩, ⟨2, 2⟩⟩ : Widget).vel.x = 1/2 from rfl]
        rw [abs_le]
        constructor <;> norm_num)
    (by rw [show (⟨⟨1, 1⟩, ⟨1/2, 1/2⟩, ⟨2, 2⟩⟩ : Widget).vel.y = 1/2 from rfl]
        rw [abs_le]
        constructor <;> norm_num)
    1

/-- Witness for C8: two widgets updated in the two possible orders agree. -/
theorem update_order_irrelevant_witness :
    (∀ i, updateSeq ⟨10, 10⟩ 2 [0, 1]
        (fun i => if i = 0 then ⟨⟨1, 1⟩, ⟨1, 0⟩, ⟨1, 1⟩⟩ else ⟨⟨2, 2⟩, ⟨0, 1⟩, ⟨1, 1⟩⟩) i =
      updateSeq ⟨10, 10⟩ 2 [1, 0]
        (fun i => if i = 0 then ⟨⟨1, 1⟩, ⟨1, 0⟩, ⟨1, 1⟩⟩ else ⟨⟨2, 2⟩, ⟨0, 1⟩, ⟨1, 1⟩⟩) i) ∧
    (∀ i, i ∈ ([0, 1] : List (Fin 2)) →
      updateSeq ⟨10, 10⟩ 2 [0, 1]
        (fun i => if i = 0 then ⟨⟨1, 1⟩, ⟨1, 0⟩, ⟨1, 1⟩⟩ else ⟨⟨2, 2⟩, ⟨0, 1⟩, ⟨1, 1⟩⟩) i =
      move ⟨10, 10⟩ ((fun i : Fin 2 =>
        if i = 0 then (⟨⟨1, 1⟩, ⟨1, 0⟩, ⟨1, 1⟩⟩ : Widget) else ⟨⟨2, 2⟩, ⟨0, 1⟩, ⟨1, 1⟩⟩) i)) :=
  update_order_irrelevant ⟨10, 10⟩ 2 [0, 1] [1, 0]
    (fun i => if i = 0 then ⟨⟨1, 1⟩, ⟨1, 0⟩, ⟨1, 1⟩⟩ else ⟨⟨2, 2⟩, ⟨0, 1⟩, ⟨1, 1⟩⟩)
    (by decide) (by decide) (by decide)

/-- Folding the removal step of clear_widgets over a duplicate-free snapshot
whose members all sit in the duplicate-free current list removes from the
current list exactly its members that are moving and in the snapshot. -/
theorem clear_foldl_eq (snap : List KWidget) :
    ∀ cur : List KWidget, cur.Nodup → snap.Nodup → (∀ x ∈ snap, x ∈ cur) →
      snap.foldl
          (fun cur child => if child.isMoving then removeWidget cur child else cur)
          cur
        = cur.filter (fun x => !(x.isMoving && decide (x ∈ snap))) := by
  induction snap with
  | nil =>
      intro cur _ _ _
      simp
  | cons c rest ih =>
      intro cur hcur hsnap hsub
      have hcmem : c ∈ cur := hsub c (List.mem_cons_self c rest)
      have hcrest : c ∉ rest := (List.nodup_cons.mp hsnap).1
      have hrest : rest.Nodup := (List.nodup_cons.mp hsnap).2
      rw [List.foldl_cons]
      by_cases hm : c.isMoving
      · rw [if_pos hm]
        show List.foldl _ (cur.erase c) rest = _
        rw [ih (cur.erase c) (hcur.erase c) hrest ?hsub2]
        case hsub2 =>
          intro x hx
          have hxc : x ≠ c := by
            intro he
            subst he
            exact hcrest hx
          exact (List.mem_erase_of_ne hxc).mpr
            (hsub x (List.mem_cons_of_mem c hx))
        rw [hcur.erase_eq_filter c, List.filter_filter]
        apply List.filter_congr
        intro x _
        by_cases hxc : x = c
        · subst hxc
          simp [hm]
        · simp [List.mem_cons, hxc]
      · rw [if_neg hm]
        rw [ih cur hcur hrest
          (fun x hx => hsub x (List.mem_cons_of_mem c hx))]
        apply List.filter_congr
        intro x _
        by_cases hxc : x = c
        · subst hxc
          simp [Bool.eq_false_iff.mpr hm]
        · simp [List.mem_cons, hxc]

/-- C6: clear_widgets removes from the frame exactly those children that are
MovingWidget instances, keeps every other child, and afterwards no moving
widget is left among the children; stated for a duplicate-free children list,
as the widget tree holds each child object once. -/
theorem clear_removes_exactly_moving (children : List KWidget)
    (h : children.Nodup) :
    clearWidgets children = children.filter (fun x => !x.isMoving) ∧
    ∀ x ∈ clearWidgets children, x.isMoving = false := by
  have h1 : clearWidgets children =
      children.filter (fun x => !(x.isMoving && decide (x ∈ children))) :=
    clear_foldl_eq children children h h (fun x hx => hx)
  have h2 : children.filter (fun x => !(x.isMoving && decide (x ∈ children))) =
      children.filter (fun x => !x.isMoving) := by
    apply List.filter_congr
    intro x hx
    simp [hx]
  constructor
  · rw [h1, h2]
  · intro x hx
    rw [h1, h2] at hx
    simpa using List.of_mem_filter hx

/-- Witness for C6 on a three-child frame with two moving widgets. -/
theorem clear_removes_exactly_moving_witness :
    clearWidgets [⟨0, true⟩, ⟨1, false⟩, ⟨2, true⟩] =
      List.filter (fun x => !x.isMoving) [⟨0, true⟩, ⟨1, false⟩, ⟨2, true⟩] ∧
    ∀ x ∈ clearWidgets [⟨0, true⟩, ⟨1, false⟩, ⟨2, true⟩],
      x.isMoving = false :=
  clear_removes_exactly_moving [⟨0, true⟩, ⟨1, false⟩, ⟨2, true⟩] (by decide)

end WidgetSpam

namespace Calculator

/-- Character replacement distributes over list concatenation. -/
theorem replaceChar_append (a b : List Char) (old : Char) (new : List Char) :
    replaceChar (a ++ b) old new =
      replaceChar a old new ++ replaceChar b old new := by
  induction a with
  | nil => rfl
  | cons c rest ih =>
      show (if c = old then new else [c]) ++ replaceChar (rest ++ b) old new =
        ((if c = old then new else [c]) ++ replaceChar rest old new) ++
          replaceChar b old new
      rw [ih, List.append_assoc]

/-- The chained replace calls act as the one-pass per-character
substitution described by the spec. -/
theorem substGlyphs_eq_flatMap (cs : List Char) :
    substGlyphs cs = cs.flatMap glyphSub := by
  induction cs with
  | nil => rfl
  | cons c rest ih =>
      have hstep : substGlyphs (c :: rest) =
          replaceChar (replaceChar [c] 'X' ['*'] ++ replaceChar rest 'X' ['*'])
            '^' ['*', '*'] := by
        simp only [substGlyphs]
        rw [show (c :: rest) = [c] ++ rest from rfl,
          replaceChar_append]
      rw [hstep, replaceChar_append, List.flatMap_cons]
      rw [show replaceChar rest 'X' ['*'] = replaceChar rest 'X' ['*'] from rfl]
      have htail : replaceChar (replaceChar rest 'X' ['*']) '^' ['*', '*'] =
          rest.flatMap glyphSub := ih
      rw [htail]
      by_cases hX : c = 'X'
      · subst hX
        rfl
      · by_cases hC : c = '^'
        · subst hC
          rfl
        · simp only [replaceChar, if_neg hX, glyphSub, if_neg hC]
          simp [replaceChar, hX, hC]

/-- Glyph substitution distributes over concatenation. -/
theorem substGlyphs_append (a b : List Char) :
    substGlyphs (a ++ b) = substGlyphs a ++ substGlyphs b := by
  simp only [substGlyphs, replaceChar_append]

/-- C2: calc substitutes every occurrence of the glyph X by the
multiplication operator and every occurrence of ^ by the exponentiation
operator, hands the substituted text to the generic expression evaluator,
returns the string representation of the value when evaluation succeeds,
and on the input 7X8 returns 56. -/
theorem calc_substitutes_and_evaluates :
    (∀ cs : List Char, substGlyphs cs = cs.flatMap glyphSub) ∧
    (∀ (s : String) (v : Val),
      evalArith (substGlyphs s.toList) = some v → calcFn s = reprVal v) ∧
    calcFn "7X8" = "56" := by
  refine ⟨substGlyphs_eq_flatMap, ?_, by decide⟩
  intro s v h
  unfold calcFn
  rw [h]

/-- Witness for C2: the example input evaluated through the theorem. -/
theorem calc_substitutes_and_evaluates_witness :
    calcFn "7X8" = reprVal ⟨56, 1⟩ :=
  calc_substitutes_and_evaluates.2.1 "7X8" ⟨56, 1⟩ (by decide)

/-- C3: whenever evaluation of the substituted text fails, calc returns the
one fixed fallback string, with no distinction between error kinds; in
particular the malformed input 5+, the division 1/0 and the non-expression
abc all yield the fallback, and calc is total so nothing is thrown. -/
theorem calc_fallback_on_failure :
    (∀ s : String,
      evalArith (substGlyphs s.toList) = none → calcFn s = fallbackMsg) ∧
    calcFn "5+" = fallbackMsg ∧
    calcFn "1/0" = fallbackMsg ∧
    calcFn "abc" = fallbackMsg := by
  refine ⟨?_, by decide, by decide, by decide⟩
  intro s h
  unfold calcFn
  rw [h]

/-- Witness for C3 at the malformed input 5+. -/
theorem calc_fallback_on_failure_witness :
    calcFn "5+" = fallbackMsg :=
  calc_fallback_on_failure.1 "5+" (by decide)

/-- A successful parse at some fuel also succeeds, with the same result, at
one more unit of fuel, simultaneously for the six parsing functions. -/
theorem parse_mono_succ : ∀ f : ℕ,
    (∀ ts r, parseA f ts = some r → parseA (f + 1) ts = some r) ∧
    (∀ x ts r, parseARest f x ts = some r → parseARest (f + 1) x ts = some r) ∧
    (∀ ts r, parseM f ts = some r → parseM (f + 1) ts = some r) ∧
    (∀ x ts r, parseMRest f x ts = some r → parseMRest (f + 1) x ts = some r) ∧
    (∀ ts r, parseU f ts = some r → parseU (f + 1) ts = some r) ∧
    (∀ ts r, parsePrim f ts = some r → parsePrim (f + 1) ts = some r) := by
  intro f
  induction f with
  | zero =>
      refine ⟨?_, ?_, ?_, ?_, ?_, ?_⟩
      · intro ts r h; exact Option.noConfusion h
      · intro x ts r h; exact Option.noConfusion h
      · intro ts r h; exact Option.noConfusion h
      · intro x ts r h; exact Option.noConfusion h
      · intro ts r h; exact Option.noConfusion h
      · intro ts r h; exact Option.noConfusion h
  | succ f ih =>
      obtain ⟨ihA, ihAR, ihM, ihMR, ihU, ihP⟩ := ih
      refine ⟨?_, ?_, ?_, ?_, ?_, ?_⟩
      · intro ts r h
        obtain ⟨p, hp, hrest⟩ := Option.bind_eq_some.mp h
        show (parseM (f + 1) ts).bind (fun p => parseARest (f + 1) p.1 p.2) =
          some r
        rw [ihM _ _ hp]
        exact ihAR _ _ _ hrest
      · intro x ts r h
        cases ts with
        | nil => exact h
        | cons t ts2 =>
            cases t
            case plus =>
                obtain ⟨p, hp, hrest⟩ := Option.bind_eq_some.mp h
                show (parseM (f + 1) ts2).bind
                  (fun p => parseARest (f + 1) (addVal x p.1) p.2) = some r
                rw [ihM _ _ hp]
                exact ihAR _ _ _ hrest
            case minus =>
                obtain ⟨p, hp, hrest⟩ := Option.bind_eq_some.mp h
                show (parseM (f + 1) ts2).bind
                  (fun p => parseARest (f + 1) (subVal x p.1) p.2) = some r
                rw [ihM _ _ hp]
                exact ihAR _ _ _ hrest
            all_goals exact h
      · intro ts r h
        obtain ⟨p, hp, hrest⟩ := Option.bind_eq_some.mp h
        show (parseU (f + 1) ts).bind (fun p => parseMRest (f + 1) p.1 p.2) =
          some r
        rw [ihU _ _ hp]
        exact ihMR _ _ _ hrest
      · intro x ts r h
        cases ts with
        | nil => exact h
        | cons t ts2 =>
            cases t
            case star =>
                obtain ⟨p, hp, hrest⟩ := Option.bind_eq_some.mp h
                show (parseU (f + 1) ts2).bind
                  (fun p => parseMRest (f + 1) (mulVal x p.1) p.2) = some r
                rw [ihU _ _ hp]
                exact ihMR _ _ _ hrest
            case slash =>
                obtain ⟨p, hp, hrest⟩ := Option.bind_eq_some.mp h
                obtain ⟨v, hv, h3⟩ := Option.bind_eq_some.mp hrest
                show (parseU (f + 1) ts2).bind
                  (fun p => (divVal x p.1).bind
                    fun v => parseMRest (f + 1) v p.2) = some r
                rw [ihU _ _ hp]
                show (divVal x p.1).bind (fun v => parseMRest (f + 1) v p.2) =
                  some r
                rw [hv]
                exact ihMR _ _ _ h3
            all_goals exact h
      · intro ts r h
        have hbody : ∀ us : List Tok,
            ((parsePrim f us).bind fun p =>
              match p.2 with
              | Tok.pow :: r2 =>
                  (parseU f r2).bind fun q =>
                    (powVal p.1 q.1).map fun v => (v, q.2)
              | r2 => some (p.1, r2)) = some r →
            ((parsePrim (f + 1) us).bind fun p =>
              match p.2 with
              | Tok.pow :: r2 =>
                  (parseU (f + 1) r2).bind fun q =>
                    (powVal p.1 q.1).map fun v => (v, q.2)
              | r2 => some (p.1, r2)) = some r := by
          intro us hb
          obtain ⟨p, hp, h2⟩ := Option.bind_eq_some.mp hb
          rw [ihP _ _ hp]
          obtain ⟨v1, pts⟩ := p
          cases pts with
          | nil => exact h2
          | cons t3 r3 =>
              cases t3
              case pow =>
                  obtain ⟨q, hq, h3⟩ := Option.bind_eq_some.mp h2
                  show (parseU (f + 1) r3).bind
                    (fun q => (powVal v1 q.1).map fun v => (v, q.2)) = some r
                  rw [ihU _ _ hq]
                  exact h3
              all_goals exact h2
        cases ts with
        | nil => exact hbody [] h
        | cons t ts2 =>
            cases t
            case minus =>
                obtain ⟨p, hp, h2⟩ := Option.map_eq_some'.mp h
                show (parseU (f + 1) ts2).map (fun p => (negVal p.1, p.2)) =
                  some r
                rw [ihU _ _ hp, Option.map_some', h2]
            case plus => exact ihU _ _ h
            all_goals exact hbody _ h
      · intro ts r h
        cases ts with
        | nil => exact Option.noConfusion h
        | cons t ts2 =>
            cases t
            case num v => exact h
            case lpar =>
                obtain ⟨p, hp, h2⟩ := Option.bind_eq_some.mp h
                show (parseA (f + 1) ts2).bind
                  (fun p =>
                    match p.2 with
                    | Tok.rpar :: r2 => some (p.1, r2)
                    | _ => none) = some r
                rw [ihA _ _ hp]
                exact h2
            all_goals exact Option.noConfusion h

/-- A successful parse holds at any larger fuel, for the addition level. -/
theorem parseA_mono_le {f g : ℕ} (h : f ≤ g) :
    ∀ ts r, parseA f ts = some r → parseA g ts = some r := by
  intro ts r hp
  obtain ⟨k, rfl⟩ := Nat.exists_eq_add_of_le h
  clear h
  induction k with
  | zero => exact hp
  | succ k ih => exact (parse_mono_succ (f + k)).1 _ _ ih

/-- The empty token list never parses as an atom. -/
theorem parsePrim_nil (f : ℕ) : parsePrim f [] = none := by
  cases f <;> rfl

/-- Appending a closing parenthesis to the input of a successful parse
leaves the parsed value unchanged and appends the parenthesis to the
remainder, simultaneously for the six parsing functions: no parsing
decision of the grammar is driven by a closing parenthesis at the point
where the original input ended. -/
theorem parse_ext : ∀ f : ℕ,
    (∀ ts q r, parseA f ts = some (q, r) →
        parseA f (ts ++ [Tok.rpar]) = some (q, r ++ [Tok.rpar])) ∧
    (∀ x ts q r, parseARest f x ts = some (q, r) →
        parseARest f x (ts ++ [Tok.rpar]) = some (q, r ++ [Tok.rpar])) ∧
    (∀ ts q r, parseM f ts = some (q, r) →
        parseM f (ts ++ [Tok.rpar]) = some (q, r ++ [Tok.rpar])) ∧
    (∀ x ts q r, parseMRest f x ts = some (q, r) →
        parseMRest f x (ts ++ [Tok.rpar]) = some (q, r ++ [Tok.rpar])) ∧
    (∀ ts q r, parseU f ts = some (q, r) →
        parseU f (ts ++ [Tok.rpar]) = some (q, r ++ [Tok.rpar])) ∧
    (∀ ts q r, parsePrim f ts = some (q, r) →
        parsePrim f (ts ++ [Tok.rpar]) = some (q, r ++ [Tok.rpar])) := by
  intro f
  induction f with
  | zero =>
      refine ⟨?_, ?_, ?_, ?_, ?_, ?_⟩
      · intro ts q r h; exact Option.noConfusion h
      · intro x ts q r h; exact Option.noConfusion h
      · intro ts q r h; exact Option.noConfusion h
      · intro x ts q r h; exact Option.noConfusion h
      · intro ts q r h; exact Option.noConfusion h
      · intro ts q r h; exact Option.noConfusion h
  | succ f ih =>
      obtain ⟨ihA, ihAR, ihM, ihMR, ihU, ihP⟩ := ih
      refine ⟨?_, ?_, ?_, ?_, ?_, ?_⟩
      · intro ts q r h
        obtain ⟨p, hp, hrest⟩ := Option.bind_eq_some.mp h
        obtain ⟨pv, pr⟩ := p
        show (parseM f (ts ++ [Tok.rpar])).bind
          (fun p => parseARest f p.1 p.2) = some (q, r ++ [Tok.rpar])
        rw [ihM _ _ _ hp]
        exact ihAR _ _ _ _ hrest
      · intro x ts q r h
        cases ts with
        | nil =>
            injection h with h1
            injection h1 with h2 h3
            subst h2
            subst h3
            rfl
        | cons t ts2 =>
            cases t
            case plus =>
                obtain ⟨p, hp, hrest⟩ := Option.bind_eq_some.mp h
                obtain ⟨pv, pr⟩ := p
                show (parseM f (ts2 ++ [Tok.rpar])).bind
                  (fun p => parseARest f (addVal x p.1) p.2) =
                  some (q, r ++ [Tok.rpar])
                rw [ihM _ _ _ hp]
                exact ihAR _ _ _ _ hrest
            case minus =>
                obtain ⟨p, hp, hrest⟩ := Option.bind_eq_some.mp h
                obtain ⟨pv, pr⟩ := p
                show (parseM f (ts2 ++ [Tok.rpar])).bind
                  (fun p => parseARest f (subVal x p.1) p.2) =
                  some (q, r ++ [Tok.rpar])
                rw [ihM _ _ _ hp]
                exact ihAR _ _ _ _ hrest
            all_goals injection h with h1
            all_goals injection h1 with h2 h3
            all_goals subst h2
            all_goals subst h3
            all_goals rfl
      · intro ts q r h
        obtain ⟨p, hp, hrest⟩ := Option.bind_eq_some.mp h
        obtain ⟨pv, pr⟩ := p
        show (parseU f (ts ++ [Tok.rpar])).bind
          (fun p => parseMRest f p.1 p.2) = some (q, r ++ [Tok.rpar])
        rw [ihU _ _ _ hp]
        exact ihMR _ _ _ _ hrest
      · intro x ts q r h
        cases ts with
        | nil =>
            injection h with h1
            injection h1 with h2 h3
            subst h2
            subst h3
            rfl
        | cons t ts2 =>
            cases t
            case star =>
                obtain ⟨p, hp, hrest⟩ := Option.bind_eq_some.mp h
                obtain ⟨pv, pr⟩ := p
                show (parseU f (ts2 ++ [Tok.rpar])).bind
                  (fun p => parseMRest f (mulVal x p.1) p.2) =
                  some (q, r ++ [Tok.rpar])
                rw [ihU _ _ _ hp]
                exact ihMR _ _ _ _ hrest
            case slash =>
                obtain ⟨p, hp, hrest⟩ := Option.bind_eq_some.mp h
                obtain ⟨v, hv, h3⟩ := Option.bind_eq_some.mp hrest
                obtain ⟨pv, pr⟩ := p
                show (parseU f (ts2 ++ [Tok.rpar])).bind
                  (fun p => (divVal x p.1).bind
                    fun v => parseMRest f v p.2) = some (q, r ++ [Tok.rpar])
                rw [ihU _ _ _ hp]
                show (divVal x pv).bind (fun v => parseMRest f v (pr ++ [Tok.rpar])) =
                  some (q, r ++ [Tok.rpar])
                rw [hv]
                exact ihMR _ _ _ _ h3
            all_goals injection h with h1
            all_goals injection h1 with h2 h3
            all_goals subst h2
            all_goals subst h3
            all_goals rfl
      · intro ts q r h
        have hbody : ∀ us : List Tok,
            ((parsePrim f us).bind fun p =>
              match p.2 with
              | Tok.pow :: r2 =>
                  (parseU f r2).bind fun q2 =>
                    (powVal p.1 q2.1).map fun v => (v, q2.2)
              | r2 => some (p.1, r2)) = some (q, r) →
            ((parsePrim f (us ++ [Tok.rpar])).bind fun p =>
              match p.2 with
              | Tok.pow :: r2 =>
                  (parseU f r2).bind fun q2 =>
                    (powVal p.1 q2.1).map fun v => (v, q2.2)
              | r2 => some (p.1, r2)) = some (q, r ++ [Tok.rpar]) := by
          intro us hb
          obtain ⟨p, hp, h2⟩ := Option.bind_eq_some.mp hb
          obtain ⟨pv, pts⟩ := p
          rw [ihP _ _ _ hp]
          cases pts with
          | nil =>
              injection h2 with h1
              injection h1 with h2 h3
              subst h2
              subst h3
              rfl
          | cons t3 r3 =>
              cases t3
              case pow =>
                  obtain ⟨q2, hq2, h3⟩ := Option.bind_eq_some.mp h2
                  obtain ⟨w, hw, h4⟩ := Option.map_eq_some'.mp h3
                  obtain ⟨q2v, q2r⟩ := q2
                  injection h4 with h4a h4b
                  subst h4a
                  subst h4b
                  show (parseU f (r3 ++ [Tok.rpar])).bind
                    (fun q2 => (powVal pv q2.1).map fun v => (v, q2.2)) =
                    some (w, q2r ++ [Tok.rpar])
                  rw [ihU _ _ _ hq2]
                  show (powVal pv q2v).map (fun v => (v, q2r ++ [Tok.rpar])) =
                    some (w, q2r ++ [Tok.rpar])
                  rw [hw]
                  rfl
              all_goals injection h2 with h1
              all_goals injection h1 with h2 h3
              all_goals subst h2
              all_goals subst h3
              all_goals rfl
        cases ts with
        | nil => exact hbody [] h
        | cons t ts2 =>
            cases t
            case minus =>
                obtain ⟨p, hp, h2⟩ := Option.map_eq_some'.mp h
                obtain ⟨pv, pr⟩ := p
                injection h2 with h2a h2b
                subst h2a
                subst h2b
                show (parseU f (ts2 ++ [Tok.rpar])).map
                  (fun p => (negVal p.1, p.2)) =
                  some (negVal pv, pr ++ [Tok.rpar])
                rw [ihU _ _ _ hp]
                rfl
            case plus => exact ihU _ _ _ h
            all_goals exact hbody _ h
      · intro ts q r h
        cases ts with
        | nil => exact Option.noConfusion h
        | cons t ts2 =>
            cases t
            case num v =>
                injection h with h1
                injection h1 with h2 h3
                subst h2
                subst h3
                rfl
            case lpar =>
                obtain ⟨p, hp, h2⟩ := Option.bind_eq_some.mp h
                obtain ⟨pv, pts⟩ := p
                cases pts with
                | nil => exact Option.noConfusion h2
                | cons t3 r3 =>
                    cases t3
                    case rpar =>
                        injection h2 with h1
                        injection h1 with h2a h3a
                        subst h2a
                        subst h3a
                        show (parseA f (ts2 ++ [Tok.rpar])).bind
                          (fun p =>
                            match p.2 with
                            | Tok.rpar :: r2 => some (p.1, r2)
                            | _ => none) = some (pv, r3 ++ [Tok.rpar])
                        rw [ihA _ _ _ hp]
                        rfl
                    all_goals exact Option.noConfusion h2
            all_goals exact Option.noConfusion h

/-- Wrapping a fully parsed token list in a unary minus and parentheses
evaluates to the negated value. -/
theorem evalToks_neg (ts : List Tok) (x : Val) (h : evalToks ts = some x) :
    evalToks (Tok.minus :: Tok.lpar :: (ts ++ [Tok.rpar])) =
      some (negVal x) := by
  have hp : parseA (fuelFor ts) ts = some (x, []) := by
    unfold evalToks at h
    cases hq : parseA (fuelFor ts) ts with
    | none => rw [hq] at h; exact Option.noConfusion h
    | some p =>
        obtain ⟨pv, pr⟩ := p
        cases pr with
        | nil =>
            rw [hq] at h
            injection h with h1
            subst h1
            rfl
        | cons t rest => rw [hq] at h; exact Option.noConfusion h
  have h1 : parseA (fuelFor ts) (ts ++ [Tok.rpar]) = some (x, [Tok.rpar]) :=
    (parse_ext (fuelFor ts)).1 ts x [] hp
  have h2 : parsePrim (fuelFor ts + 1) (Tok.lpar :: (ts ++ [Tok.rpar])) =
      some (x, []) := by
    show (parseA (fuelFor ts) (ts ++ [Tok.rpar])).bind
      (fun p =>
        match p.2 with
        | Tok.rpar :: r2 => some (p.1, r2)
        | _ => none) = some (x, [])
    rw [h1]
    rfl
  have h3 : parseU (fuelFor ts + 2) (Tok.lpar :: (ts ++ [Tok.rpar])) =
      some (x, []) := by
    show (parsePrim (fuelFor ts + 1) (Tok.lpar :: (ts ++ [Tok.rpar]))).bind
      (fun p =>
        match p.2 with
        | Tok.pow :: r2 =>
            (parseU (fuelFor ts + 1) r2).bind fun q2 =>
              (powVal p.1 q2.1).map fun v => (v, q2.2)
        | r2 => some (p.1, r2)) = some (x, [])
    rw [h2]
    rfl
  have h4 : parseU (fuelFor ts + 3)
      (Tok.minus :: Tok.lpar :: (ts ++ [Tok.rpar])) = some (negVal x, []) := by
    show (parseU (fuelFor ts + 2) (Tok.lpar :: (ts ++ [Tok.rpar]))).map
      (fun p => (negVal p.1, p.2)) = some (negVal x, [])
    rw [h3]
    rfl
  have h5 : parseM (fuelFor ts + 4)
      (Tok.minus :: Tok.lpar :: (ts ++ [Tok.rpar])) = some (negVal x, []) := by
    show (parseU (fuelFor ts + 3)
        (Tok.minus :: Tok.lpar :: (ts ++ [Tok.rpar]))).bind
      (fun p => parseMRest (fuelFor ts + 3) p.1 p.2) = some (negVal x, [])
    rw [h4]
    rfl
  have h6 : parseA (fuelFor ts + 5)
      (Tok.minus :: Tok.lpar :: (ts ++ [Tok.rpar])) = some (negVal x, []) := by
    show (parseM (fuelFor ts + 4)
        (Tok.minus :: Tok.lpar :: (ts ++ [Tok.rpar]))).bind
      (fun p => parseARest (fuelFor ts + 4) p.1 p.2) = some (negVal x, [])
    rw [h5]
    rfl
  unfold evalToks
  have hlen : fuelFor (Tok.minus :: Tok.lpar :: (ts ++ [Tok.rpar])) =
      fuelFor ts + 9 := by
    simp [fuelFor, List.length_append]
    ring
  rw [hlen, parseA_mono_le (by omega) _ _ h6]

/-- One unfolding step of the scanner on a consumed character. -/
theorem lexAux_cons (pending : List Char) (c : Char) (cs : List Char) :
    lexAux pending (c :: cs) =
      if isNumChar c then lexAux (pending ++ [c]) cs
      else (flushNum pending).bind fun f =>
        (symTok1 c).bind fun t =>
          (lexAux [] cs).map fun rest => f ++ t :: rest := rfl

/-- Appending a closing parenthesis to a successfully scanned text appends
one closing-parenthesis token to the scan. -/
theorem lexAux_ext :
    ∀ (cs pending : List Char) (ts : List Tok), lexAux pending cs = some ts →
      lexAux pending (cs ++ [')']) = some (ts ++ [Tok.rpar]) := by
  intro cs
  induction cs with
  | nil =>
      intro pending ts h
      have hflush : flushNum pending = some ts := h
      show (flushNum pending).bind
        (fun f => (symTok1 ')').bind fun t =>
          (lexAux [] []).map fun rest => f ++ t :: rest) =
        some (ts ++ [Tok.rpar])
      rw [hflush]
      rfl
  | cons c cs2 ih =>
      intro pending ts h
      rw [lexAux_cons] at h
      show lexAux pending (c :: (cs2 ++ [')'])) = some (ts ++ [Tok.rpar])
      rw [lexAux_cons]
      by_cases hc : isNumChar c
      · rw [if_pos hc] at h ⊢
        exact ih (pending ++ [c]) ts h
      · rw [if_neg hc] at h ⊢
        obtain ⟨f0, hf, hrest1⟩ := Option.bind_eq_some.mp h
        obtain ⟨t0, ht, hrest2⟩ := Option.bind_eq_some.mp hrest1
        obtain ⟨rest0, hlex, hres⟩ := Option.map_eq_some'.mp hrest2
        rw [hf, ht, ih [] rest0 hlex]
        subst hres
        simp [List.append_assoc]

/-- The star-collapsing pass walks over a head that is not a star. -/
theorem collapseStars_cons_nonstar (t : Tok) (h : t ≠ Tok.star)
    (l : List Tok) :
    collapseStars (t :: l) = t :: collapseStars l := by
  cases t <;> first
    | exact absurd rfl h
    | (cases l with
        | nil => rfl
        | cons t2 rest => cases t2 <;> rfl)

/-- The star-collapsing pass commutes with appending one closing
parenthesis. -/
theorem collapseStars_append_rpar :
    ∀ ts : List Tok,
      collapseStars (ts ++ [Tok.rpar]) = collapseStars ts ++ [Tok.rpar] := by
  have H : ∀ (n : ℕ) (ts : List Tok), ts.length ≤ n →
      collapseStars (ts ++ [Tok.rpar]) = collapseStars ts ++ [Tok.rpar] := by
    intro n
    induction n with
    | zero =>
        intro ts hlen
        have hnil : ts = [] := List.eq_nil_of_length_eq_zero (Nat.le_zero.mp hlen)
        subst hnil
        rfl
    | succ n ih =>
        intro ts hlen
        cases ts with
        | nil => rfl
        | cons t1 tl =>
            cases tl with
            | nil => cases t1 <;> rfl
            | cons t2 rest =>
                by_cases h12 : t1 = Tok.star ∧ t2 = Tok.star
                · obtain ⟨e1, e2⟩ := h12
                  subst e1
                  subst e2
                  show Tok.pow :: collapseStars (rest ++ [Tok.rpar]) =
                    (Tok.pow :: collapseStars rest) ++ [Tok.rpar]
                  rw [ih rest
                    (by simp only [List.length_cons] at hlen; omega)]
                  rfl
                · have hne : t1 ≠ Tok.star ∨ t2 ≠ Tok.star := by
                    by_cases e1 : t1 = Tok.star
                    · right
                      intro e2
                      exact h12 ⟨e1, e2⟩
                    · left
                      exact e1
                  rcases hne with hne | hne
                  · rw [show (t1 :: t2 :: rest) ++ [Tok.rpar] =
                        t1 :: ((t2 :: rest) ++ [Tok.rpar]) from rfl]
                    rw [collapseStars_cons_nonstar t1 hne,
                        collapseStars_cons_nonstar t1 hne,
                        ih (t2 :: rest)
                          (by simp only [List.length_cons] at hlen ⊢; omega)]
                    rfl
                  · have hstep1 : collapseStars (t1 :: t2 :: (rest ++ [Tok.rpar])) =
                        t1 :: collapseStars (t2 :: (rest ++ [Tok.rpar])) := by
                      cases t1 <;> cases t2 <;>
                        first | exact absurd rfl hne | rfl
                    have hstep2 : collapseStars (t1 :: t2 :: rest) =
                        t1 :: collapseStars (t2 :: rest) := by
                      cases t1 <;> cases t2 <;>
                        first | exact absurd rfl hne | rfl
                    rw [show (t1 :: t2 :: rest) ++ [Tok.rpar] =
                        t1 :: t2 :: (rest ++ [Tok.rpar]) from rfl]
                    rw [hstep1, hstep2,
                        show t2 :: (rest ++ [Tok.rpar]) =
                          (t2 :: rest) ++ [Tok.rpar] from rfl,
                        ih (t2 :: rest)
                          (by simp only [List.length_cons] at hlen ⊢; omega)]
                    rfl
  intro ts
  exact H ts.length ts le_rfl

/-- Scanning a symbol character prepends its token. -/
theorem lexAux_sym_cons (c : Char) (t : Tok) (cs : List Char)
    (hnum : isNumChar c = false) (hsym : symTok1 c = some t) :
    lexAux [] (c :: cs) = (lexAux [] cs).map fun rest => t :: rest := by
  rw [lexAux_cons, if_neg (by simp [hnum])]
  rw [show flushNum ([] : List Char) = some [] from rfl, hsym]
  rfl

/-- Scanning the display wrapped by the plus-or-minus button yields the
minus and parenthesis tokens around the original scan. -/
theorem lexChars_neg_wrap (cs : List Char) (ts : List Tok)
    (h : lexChars cs = some ts) :
    lexChars ('-' :: '(' :: (cs ++ [')'])) =
      some (Tok.minus :: Tok.lpar :: (ts ++ [Tok.rpar])) := by
  obtain ⟨raw, hraw, hcol⟩ := Option.map_eq_some'.mp h
  have e1 : lexAux [] (cs ++ [')']) = some (raw ++ [Tok.rpar]) :=
    lexAux_ext cs [] raw hraw
  have e2 : lexAux [] ('(' :: (cs ++ [')'])) =
      some (Tok.lpar :: (raw ++ [Tok.rpar])) := by
    rw [lexAux_sym_cons '(' Tok.lpar _ (by decide) (by decide), e1]
    rfl
  have e3 : lexAux [] ('-' :: '(' :: (cs ++ [')'])) =
      some (Tok.minus :: Tok.lpar :: (raw ++ [Tok.rpar])) := by
    rw [lexAux_sym_cons '-' Tok.minus _ (by decide) (by decide), e2]
    rfl
  show (lexAux [] ('-' :: '(' :: (cs ++ [')']))).map collapseStars =
    some (Tok.minus :: Tok.lpar :: (ts ++ [Tok.rpar]))
  rw [e3, Option.map_some']
  congr 1
  rw [collapseStars_cons_nonstar Tok.minus (by decide),
      collapseStars_cons_nonstar Tok.lpar (by decide),
      collapseStars_append_rpar raw, hcol]

/-- Wrapping the character text in a unary minus and parentheses negates the
evaluation result. -/
theorem evalArith_neg (cs : List Char) (x : Val) (h : evalArith cs = some x) :
    evalArith ('-' :: '(' :: (cs ++ [')'])) = some (negVal x) := by
  obtain ⟨ts, hts, hev⟩ := Option.bind_eq_some.mp h
  show (lexChars ('-' :: '(' :: (cs ++ [')']))).bind evalToks =
    some (negVal x)
  rw [lexChars_neg_wrap cs ts hts]
  show evalToks (Tok.minus :: Tok.lpar :: (ts ++ [Tok.rpar])) =
    some (negVal x)
  exact evalToks_neg ts x hev

/-- C10: the plus-or-minus button sets the display to
calc of the display wrapped in a unary minus and parentheses; on a display
whose substituted text evaluates to a value the new display is the string
representation of the negated value, and on the empty display the result is
the fixed fallback string rather than an empty display. -/
theorem plusMinus_negates :
    (∀ (d : String) (x : Val),
      evalArith (substGlyphs d.toList) = some x →
      plusMinusPress d = reprVal (negVal x)) ∧
    plusMinusPress "" = fallbackMsg := by
  refine ⟨?_, by decide⟩
  intro d x h
  unfold plusMinusPress calcFn
  have htl : ("-(" ++ d ++ ")").toList = '-' :: '(' :: (d.toList ++ [')']) := rfl
  rw [htl]
  have hsub : substGlyphs ('-' :: '(' :: (d.toList ++ [')'])) =
      '-' :: '(' :: (substGlyphs d.toList ++ [')']) := by
    rw [show ('-' :: '(' :: (d.toList ++ [')'])) =
        ['-', '('] ++ (d.toList ++ [')']) from rfl]
    rw [substGlyphs_append, substGlyphs_append]
    rfl
  rw [hsub, evalArith_neg _ _ h]

/-- Witness for C10: negating the display 7X8 through the theorem. -/
theorem plusMinus_negates_witness :
    plusMinusPress "7X8" = reprVal (negVal ⟨56, 1⟩) :=
  plusMinus_negates.1 "7X8" ⟨56, 1⟩ (by decide)

end Calculator
